/-
Verification of permtree (src/main.rs) against its specification.

The filesystem, as the program observes it through `fs::metadata` and
`fs::read_dir`, is embedded as the inductive `FS`; the program's own tree
type is embedded as `Node`/`NodeDataF`.  Error payloads (`io::Error`) are
abstracted to numeric codes, and the user/group name database is a pair of
abstract functions `Nat → String` (the `UsersCache` memoization is
behaviourally a pure lookup).
-/
import Mathlib

set_option maxHeartbeats 1000000

namespace Permtree

/-- `enum FileKind` from src/main.rs. -/
inductive FileKind : Type where
  | directory
  | leaf
deriving DecidableEq, Repr

/-- The values a successful metadata probe returns for one path: the raw
`st_mode` bits (`metadata.mode()`), owner (`metadata.uid()`), group
(`metadata.gid()`), and whether the entry is a directory
(`metadata.is_dir()`). -/
structure Metadata : Type where
  mode : Nat
  uid : Nat
  gid : Nat
  is_dir : Bool
deriving DecidableEq, Repr

/-- The filesystem as the program sees it.  Each entry carries its final
path component `name` (raw bytes), the outcome of `fs::metadata`, and the
outcome of `fs::read_dir` as a list of per-entry results: `read_dir` can
fail as a whole, and each iteration step can fail on its own, exactly the
two failure points `ls` handles with `?`. -/
inductive FS : Type where
  | mk (name : List Nat) (meta : Except Nat Metadata)
      (entries : Except Nat (List (Except Nat FS))) : FS

/-- Final path component of a filesystem entry. -/
def FS.name : FS → List Nat
  | .mk n _ _ => n

/-- `struct NodeData` from src/main.rs, parameterized by the node type so
that the recursion nests through `List`. -/
structure NodeDataF (node : Type) : Type where
  override_perms : Option Nat
  override_uid : Option Nat
  override_gid : Option Nat
  kind : FileKind
  children : Except Nat (List node)

/-- `struct Node` from src/main.rs: a name plus either the probed data or
the metadata-probe failure. -/
inductive Node : Type where
  | mk (name : List Nat) (data : Except Nat (NodeDataF Node)) : Node

abbrev NodeData := NodeDataF Node

/-- Field accessor for `Node.name`. -/
def Node.name : Node → List Nat
  | .mk n _ => n

/-- Field accessor for `Node.data`. -/
def Node.data : Node → Except Nat NodeData
  | .mk _ d => d

/-- `maybe_override` from src/main.rs: a value equal to the parent's is
inherited (`none`), a deviating value is recorded explicitly. -/
def maybe_override {T : Type} [DecidableEq T] (parent child : T) : Option T :=
  if parent = child then none else some child

/-- The collection loop of `ls`: push each entry in iteration order, and
stop with the first per-entry error (`maybe_child?`), discarding everything
already read. -/
def ls_entries : List (Except Nat FS) → Except Nat (List FS)
  | [] => .ok []
  | .error e :: _ => .error e
  | .ok p :: rest => (ls_entries rest).map (fun ps => p :: ps)

/-- `ls` from src/main.rs: `fs::read_dir(path)?` can fail as a whole,
otherwise the entries are collected greedily. -/
def ls (rd : Except Nat (List (Except Nat FS))) : Except Nat (List FS) :=
  match rd with
  | .error e => .error e
  | .ok es => ls_entries es

/-- `struct ParentData` from src/main.rs. -/
structure ParentData : Type where
  perms : Nat
  uid : Nat
  gid : Nat
  kind : FileKind
deriving DecidableEq, Repr

mutual

/-- `build_tree` from src/main.rs.  The `data` field is
`fs::metadata(path).map(...)`; inside, perms are masked to the low 12 bits,
overrides are computed against the parent context (all three explicit at
the root), and for directories the children are
`ls(path).map(|children| children.iter().map(build_tree).collect())`,
which `build_children` computes (see `build_children_spec`). -/
def build_tree : FS → Option ParentData → Node
  | .mk name meta entries, maybe_parent_data =>
    Node.mk name
      (match meta with
      | .error e => .error e
      | .ok metadata =>
        .ok
          (let perms := metadata.mode &&& 0o7777
          let ov : Option Nat × Option Nat × Option Nat :=
            match maybe_parent_data with
            | some parent_data =>
              (maybe_override parent_data.perms perms,
               maybe_override parent_data.uid metadata.uid,
               maybe_override parent_data.gid metadata.gid)
            | none => (some perms, some metadata.uid, some metadata.gid)
          let kind := if metadata.is_dir then FileKind.directory else FileKind.leaf
          { override_perms := ov.1
            override_uid := ov.2.1
            override_gid := ov.2.2
            kind := kind
            children :=
              if metadata.is_dir then
                build_children entries
                  (some ⟨perms, metadata.uid, metadata.gid, kind⟩)
              else .ok [] }))

/-- Fused form of `ls(path).map(|cs| cs.iter().map(build_tree).collect())`
used so the recursion is over the filesystem value; `build_children_spec`
proves it equal to the source's `ls`-then-map shape. -/
def build_children : Except Nat (List (Except Nat FS)) → Option ParentData →
    Except Nat (List Node)
  | .error e, _ => .error e
  | .ok es, ctx => build_entry_list es ctx

/-- The per-entry part of `build_children`. -/
def build_entry_list : List (Except Nat FS) → Option ParentData → Except Nat (List Node)
  | [], _ => .ok []
  | .error e :: _, _ => .error e
  | .ok c :: rest, ctx =>
    match build_entry_list rest ctx with
    | .ok ns => .ok (build_tree c ctx :: ns)
    | .error e => .error e

end

mutual

/-- `prune` from src/main.rs: a metadata-probe failure is always kept; a
listing failure is always kept (with the failure preserved in place of
children); otherwise the children are pruned recursively and the node is
dropped exactly when all three overrides are absent and no child
survived. -/
def prune : Node → Option Node
  | .mk name (.error e) => some (.mk name (.error e))
  | .mk name (.ok ⟨override_perms, override_uid, override_gid, kind, .ok cs⟩) =>
    let all_inherited := override_perms.isNone && override_uid.isNone
      && override_gid.isNone
    let new_children := prune_list cs
    if all_inherited && new_children.isEmpty then
      none
    else
      some (.mk name (.ok ⟨override_perms, override_uid, override_gid, kind,
        .ok new_children⟩))
  | .mk name (.ok ⟨override_perms, override_uid, override_gid, kind, .error e⟩) =>
    some (.mk name (.ok ⟨override_perms, override_uid, override_gid, kind, .error e⟩))

/-- `cs.into_iter().filter_map(prune).collect()` from `prune`
(see `prune_list_eq`). -/
def prune_list : List Node → List Node
  | [] => []
  | c :: rest =>
    match prune c with
    | some c2 => c2 :: prune_list rest
    | none => prune_list rest

end

mutual

/-- `preorder_traversal` from src/main.rs, reified: instead of applying a
visitor, it returns the exact sequence of `(node, depth)` pairs on which
`visit` is invoked — the node first, then, only when both the probe and
the listing succeeded, each child at `1 + depth`. -/
def preorder_traversal : Node → Nat → List (Node × Nat)
  | .mk name (.ok ⟨op, ou, og, kind, .ok cs⟩), depth =>
    (Node.mk name (.ok ⟨op, ou, og, kind, .ok cs⟩), depth)
      :: preorder_children cs (1 + depth)
  | node, depth => [(node, depth)]

/-- The `for child in cs.iter()` loop of `preorder_traversal`. -/
def preorder_children : List Node → Nat → List (Node × Nat)
  | [], _ => []
  | c :: rest, depth => preorder_traversal c depth ++ preorder_children rest depth

end

/-- The successfully listed children of a node ([] when the probe or the
listing failed). -/
def listedChildren : Node → List Node
  | .mk _ (.ok ⟨_, _, _, _, .ok cs⟩) => cs
  | _ => []

/-- Names of the successfully listed children, in order. -/
def childNames (n : Node) : List (List Nat) :=
  (listedChildren n).map Node.name

/-- One lowercase hex digit, as in Rust's `{:02x}`. -/
def hexChar (d : Nat) : Char :=
  if d < 10 then Char.ofNat (48 + d) else Char.ofNat (87 + d)

/-- `format!("\\x{:02x}", byte)` from `bash_encode`: a literal backslash-x
escape followed by two lowercase hex digits. -/
def hexByte (b : Nat) : String :=
  "\\x" ++ String.mk [hexChar (b / 16 % 16), hexChar (b % 16)]

/-- `bash_encode` from src/main.rs: the path components are joined with
`/`, every byte is hex-escaped, and the whole thing is wrapped in
`"$(printf "..")"` so the shell reassembles the raw bytes. -/
def bash_encode (path : List (List Nat)) : String :=
  "\"$(printf \""
    ++ String.intercalate "/" (path.map (fun part => String.join (part.map hexByte)))
    ++ "\")\""

/-- Octal digit values of `n`, most significant first (no padding). -/
def octDigitsN (n : Nat) : List Nat :=
  if _h : n < 8 then [n] else octDigitsN (n / 8) ++ [n % 8]
decreasing_by exact Nat.div_lt_self (by omega) (by omega)

/-- Zero-pad a digit list on the left to width `w`. -/
def pad_zeros (w : Nat) (ds : List Nat) : List Nat :=
  List.replicate (w - ds.length) 0 ++ ds

/-- The value a big-endian octal digit list denotes. -/
def octValN (ds : List Nat) : Nat :=
  ds.foldl (fun a d => a * 8 + d) 0

/-- Rust's `{:04o}` formatting: octal digits zero-padded to width at
least 4. -/
def format_octal4 (n : Nat) : String :=
  String.mk ((pad_zeros 4 (octDigitsN n)).map (fun d => Char.ofNat (48 + d)))

/-- The lines `display_commands`'s visitor pushes for one visited node,
given the reassembled path for that node: the `chown`/`chgrp` match on
`(override_uid, override_gid)`, then the `chmod` with the extra leading
`0`, and nothing at all for a node whose probe failed.  `ru`/`rg` are
`NameCache::display_uid`/`display_gid`. -/
def node_cmds (ru rg : Nat → String) (path : List (List Nat)) (n : Node) :
    List String :=
  match n.data with
  | .ok data =>
    (match data.override_uid, data.override_gid with
      | some uid, some gid =>
        ["chown -R " ++ ru uid ++ ":" ++ rg gid ++ " " ++ bash_encode path]
      | some uid, none =>
        ["chown -R " ++ ru uid ++ " " ++ bash_encode path]
      | none, some gid =>
        ["chgrp -R " ++ rg gid ++ " " ++ bash_encode path]
      | none, none => [])
      ++
      (match data.override_perms with
      | some perms =>
        ["chmod -R 0" ++ format_octal4 perms ++ " " ++ bash_encode path]
      | none => [])
  | .error _ => []

/-- One step of `display_commands`'s visitor on the path/output state:
`if path.len() > depth { path.drain(depth..); } path.push(node.name)` is
exactly `path.take depth ++ [node.name]`, then the node's commands are
appended to the output. -/
def command_step (ru rg : Nat → String) :
    (List (List Nat) × List String) → (Node × Nat) → (List (List Nat) × List String)
  | (path, out), (node, depth) =>
    let path2 := path.take depth ++ [node.name]
    (path2, out ++ node_cmds ru rg path2 node)

/-- `display_commands` from src/main.rs: fold the visitor over the
preorder visit sequence starting from an empty path stack; the result is
the emitted command lines in order. -/
def display_commands (ru rg : Nat → String) (root : Node) : List String :=
  ((preorder_traversal root 0).foldl (command_step ru rg) ([], [])).2

/-- The line `display_tree`'s visitor pushes for one visited node: two
spaces per depth unit, then either the bracketed overridden attributes or
the error marker, a space, and the (lossily decoded) name.  `lossy` is
`OsStr::to_string_lossy`. -/
def tree_line (ru rg : Nat → String) (lossy : List Nat → String)
    (node : Node) (depth : Nat) : String :=
  String.join (List.replicate depth "  ")
    ++ (match node.data with
      | .ok data =>
        "[ "
          ++ (match data.override_perms with
            | some perms => "perms: " ++ format_octal4 perms ++ ", "
            | none => "")
          ++ (match data.override_uid with
            | some uid => "user: " ++ ru uid ++ ", "
            | none => "")
          ++ (match data.override_gid with
            | some gid => "group: " ++ rg gid ++ ", "
            | none => "")
          ++ "]"
      | .error _ => " [ error reading metadata ]")
    ++ " " ++ lossy node.name ++ "\n"

/-- `display_tree` from src/main.rs: the whole printed string. -/
def display_tree (ru rg : Nat → String) (lossy : List Nat → String)
    (root : Node) : String :=
  String.join ((preorder_traversal root 0).map
    (fun nd => tree_line ru rg lossy nd.1 nd.2))

/-- The first loop of `main`: canonicalize every argument in order,
stopping at the first failure with that argument's literal text.
`canon` abstracts `fs::canonicalize`. -/
def canonicalize_all {π : Type} (canon : String → Option π) :
    List String → Except String (List π)
  | [] => .ok []
  | name :: rest =>
    match canon name with
    | some p => (canonicalize_all canon rest).map (fun ps => p :: ps)
    | none => .error name

/-- `main` from src/main.rs, after argument parsing: canonicalize all
directory arguments; on the first failure print the diagnostic naming the
argument and return (a plain `return` from `fn main()`, so the process
exit status is 0); otherwise render every root in order.  `render`
abstracts the per-root output of the selected mode.  The result is the
printed lines and the process exit status. -/
def main_run {π : Type} (canon : String → Option π) (render : π → List String)
    (directories : List String) : List String × Nat :=
  match canonicalize_all canon directories with
  | .error name => (["permtree: error: where is \"" ++ name ++ "\"?"], 0)
  | .ok paths => (paths.flatMap render, 0)

/-- Modelled from std (`Path::file_name`), which is not part of this
repository: a canonicalized absolute path is its list of components, and
`file_name` is the final one — `none` when there is no final component,
as for the filesystem root `/` (whose canonical form is `/` itself). -/
def file_name (path : List (List Nat)) : Option (List Nat) :=
  path.getLast?

/-- The top of `build_tree` as called on a path:
`path.file_name().expect(..)` names the node, and `expect` on `None`
aborts the whole process with a panic, which `none` models; `meta` and
`entries` are what the filesystem would answer for that path. -/
def build_tree_at (path : List (List Nat)) (meta : Except Nat Metadata)
    (entries : Except Nat (List (Except Nat FS))) : Option Node :=
  (file_name path).map (fun nm => build_tree (FS.mk nm meta entries) none)

/-! ### Basic facts about the embedded definitions -/

@[simp] theorem nodeName_mk (nm : List Nat) (d : Except Nat NodeData) :
    (Node.mk nm d).name = nm := rfl

@[simp] theorem nodeData_mk (nm : List Nat) (d : Except Nat NodeData) :
    (Node.mk nm d).data = d := rfl

@[simp] theorem fsName_mk (nm : List Nat) (m : Except Nat Metadata)
    (es : Except Nat (List (Except Nat FS))) : (FS.mk nm m es).name = nm := rfl

/-- `build_entry_list` is the `ls`-then-map composition from the source. -/
theorem build_entry_list_eq (es : List (Except Nat FS)) (ctx : Option ParentData) :
    build_entry_list es ctx
      = (ls_entries es).map (fun cs => cs.map (fun c => build_tree c ctx)) := by
  induction es with
  | nil => rfl
  | cons hd tl ih =>
    cases hd with
    | error e => rfl
    | ok c =>
      rw [build_entry_list, ih, ls_entries]
      cases ls_entries tl <;> simp [Except.map]

/-- `build_children` is exactly
`ls(path).map(|children| children.iter().map(|c| build_tree(c, ctx)).collect())`
from the source. -/
theorem build_children_spec (entries : Except Nat (List (Except Nat FS)))
    (ctx : Option ParentData) :
    build_children entries ctx
      = (ls entries).map (fun cs => cs.map (fun c => build_tree c ctx)) := by
  cases entries with
  | error e => rfl
  | ok es => exact build_entry_list_eq es ctx

/-- `build_tree` keeps the filesystem entry's name. -/
theorem build_tree_name (f : FS) (ctx : Option ParentData) :
    (build_tree f ctx).name = f.name := by
  obtain ⟨nm, meta, entries⟩ := f
  cases meta <;> rfl

/-- `prune_list` is `cs.into_iter().filter_map(prune).collect()`. -/
theorem prune_list_eq (cs : List Node) : prune_list cs = cs.filterMap prune := by
  induction cs with
  | nil => rfl
  | cons c rest ih =>
    rw [prune_list, List.filterMap_cons, ih]
    cases prune c <;> rfl

/-- The child loop of the traversal, as a `flatMap`. -/
theorem preorder_children_eq (cs : List Node) (d : Nat) :
    preorder_children cs d = cs.flatMap (fun c => preorder_traversal c d) := by
  induction cs with
  | nil => rfl
  | cons c rest ih => rw [preorder_children, ih, List.flatMap_cons]

/-- Uniform unfolding of the traversal: visit the node, then recurse into
the successfully listed children (none otherwise). -/
theorem preorder_traversal_eq (n : Node) (d : Nat) :
    preorder_traversal n d
      = (n, d) :: (listedChildren n).flatMap (fun c => preorder_traversal c (1 + d)) := by
  obtain ⟨nm, data⟩ := n
  cases data with
  | error e => simp [preorder_traversal, listedChildren]
  | ok nd =>
    obtain ⟨op, ou, og, k, ch⟩ := nd
    cases ch with
    | error e => simp [preorder_traversal, listedChildren]
    | ok cs => simp [preorder_traversal, listedChildren, preorder_children_eq]

/-- Children are structurally smaller, so recursion and induction along
`listedChildren` terminate. -/
theorem sizeOf_lt_of_childOf {c n : Node} (h : c ∈ listedChildren n) :
    sizeOf c < sizeOf n := by
  obtain ⟨nm, data⟩ := n
  cases data with
  | error e => simp [listedChildren] at h
  | ok nd =>
    obtain ⟨op, ou, og, k, ch⟩ := nd
    cases ch with
    | error e => simp [listedChildren] at h
    | ok cs =>
      simp only [listedChildren] at h
      have h1 := List.sizeOf_lt_of_mem h
      simp only [Node.mk.sizeOf_spec, Except.ok.sizeOf_spec, NodeDataF.mk.sizeOf_spec]
      omega

/-- Strong induction over a node and its listed children. -/
theorem node_strong_ind {P : Node → Prop}
    (step : ∀ n : Node, (∀ c : Node, c ∈ listedChildren n → P c) → P n) :
    ∀ n : Node, P n := by
  have key : ∀ (k : Nat) (m : Node), sizeOf m ≤ k → P m := by
    intro k
    induction k with
    | zero =>
      intro m hm
      obtain ⟨nm, data⟩ := m
      simp only [Node.mk.sizeOf_spec] at hm
      omega
    | succ k ih =>
      intro m hm
      refine step m (fun c hc => ih c ?_)
      have := sizeOf_lt_of_childOf hc
      omega
  exact fun n => key (sizeOf n) n le_rfl

/-! ### The Command Synthesizer's output, recursively -/

mutual

/-- The Command Synthesizer's output for the subtree rooted at `n` when
the ancestor path components are `stack`: the node's own commands first,
then the children's, left to right.  `display_commands_eq` proves that the
stateful stack-truncating visitor of `display_commands` computes exactly
this. -/
def commands_rec (ru rg : Nat → String) (stack : List (List Nat)) :
    Node → List String
  | .mk name (.ok ⟨op, ou, og, k, .ok cs⟩) =>
    node_cmds ru rg (stack ++ [name]) (.mk name (.ok ⟨op, ou, og, k, .ok cs⟩))
      ++ commands_children ru rg (stack ++ [name]) cs
  | n => node_cmds ru rg (stack ++ [n.name]) n

/-- Commands of a list of sibling subtrees, in order. -/
def commands_children (ru rg : Nat → String) (stack : List (List Nat)) :
    List Node → List String
  | [] => []
  | c :: rest =>
    commands_rec ru rg stack c ++ commands_children ru rg stack rest

end

theorem commands_children_eq (ru rg : Nat → String) (stack : List (List Nat))
    (cs : List Node) :
    commands_children ru rg stack cs = cs.flatMap (commands_rec ru rg stack) := by
  induction cs with
  | nil => rfl
  | cons c rest ih => rw [commands_children, ih, List.flatMap_cons]

theorem commands_rec_eq (ru rg : Nat → String) (stack : List (List Nat)) (n : Node) :
    commands_rec ru rg stack n
      = node_cmds ru rg (stack ++ [n.name]) n
        ++ (listedChildren n).flatMap (commands_rec ru rg (stack ++ [n.name])) := by
  obtain ⟨nm, data⟩ := n
  cases data with
  | error e => simp [commands_rec, listedChildren]
  | ok nd =>
    obtain ⟨op, ou, og, k, ch⟩ := nd
    cases ch with
    | error e => simp [commands_rec, listedChildren]
    | ok cs => simp [commands_rec, listedChildren, commands_children_eq]

/-- Folding the visitor over the visit sequences of a list of sibling
subtrees, all at the same depth: the path stack is repeatedly truncated
back to the common ancestor path `p2`, and the outputs concatenate in
order. -/
theorem preorder_children_foldl_spec (ru rg : Nat → String) (cs : List Node)
    (IH : ∀ c ∈ cs, ∀ (p q : List (List Nat)) (out : List String),
      q.take p.length = p →
      ∃ f, (preorder_traversal c p.length).foldl (command_step ru rg) (q, out)
            = (f, out ++ commands_rec ru rg p c)
          ∧ f.take (p.length + 1) = p ++ [c.name]) :
    ∀ (p2 q2 : List (List Nat)) (out2 : List String),
      q2.take p2.length = p2 →
      ∃ f, (cs.flatMap (fun c => preorder_traversal c p2.length)).foldl
              (command_step ru rg) (q2, out2)
            = (f, out2 ++ cs.flatMap (commands_rec ru rg p2))
          ∧ f.take p2.length = p2 := by
  induction cs with
  | nil =>
    intro p2 q2 out2 h
    exact ⟨q2, by simp, h⟩
  | cons c rest ih =>
    intro p2 q2 out2 h
    obtain ⟨f1, hf1, hf1t⟩ := IH c (by simp) p2 q2 out2 h
    have hf1p : f1.take p2.length = p2 := by
      have h2 : (f1.take (p2.length + 1)).take p2.length
          = (p2 ++ [c.name]).take p2.length := by rw [hf1t]
      rwa [List.take_take, Nat.min_eq_left (Nat.le_succ _), List.take_left' rfl] at h2
    obtain ⟨f2, hf2, hf2t⟩ :=
      ih (fun c' hc' => IH c' (by simp [hc'])) p2 f1
        (out2 ++ commands_rec ru rg p2 c) hf1p
    refine ⟨f2, ?_, hf2t⟩
    rw [List.flatMap_cons, List.foldl_append, hf1, hf2]
    simp [List.append_assoc]

/-- The path-stack reconstruction of `display_commands` is correct: fold
the visitor over the visit sequence of a subtree at depth `p.length`,
starting from any stack whose first `p.length` entries are the ancestor
path `p`, and the output grows by exactly the recursive command list of
the subtree; the final stack still begins with `p ++ [n.name]`. -/
theorem preorder_foldl_spec (ru rg : Nat → String) :
    ∀ n : Node, ∀ (p q : List (List Nat)) (out : List String),
      q.take p.length = p →
      ∃ f, (preorder_traversal n p.length).foldl (command_step ru rg) (q, out)
            = (f, out ++ commands_rec ru rg p n)
          ∧ f.take (p.length + 1) = p ++ [n.name] := by
  refine node_strong_ind ?_
  intro n IHn p q out hq
  rw [preorder_traversal_eq, List.foldl_cons]
  have hstep : command_step ru rg (q, out) (n, p.length)
      = (p ++ [n.name], out ++ node_cmds ru rg (p ++ [n.name]) n) := by
    simp [command_step, hq]
  rw [hstep]
  have hdepth : 1 + p.length = (p ++ [n.name]).length := by
    simp [List.length_append]; omega
  rw [hdepth]
  have hself : (p ++ [n.name]).take (p ++ [n.name]).length = p ++ [n.name] :=
    List.take_length _
  obtain ⟨f, hf, hft⟩ :=
    preorder_children_foldl_spec ru rg (listedChildren n)
      (fun c hc => IHn c hc) (p ++ [n.name]) (p ++ [n.name])
      (out ++ node_cmds ru rg (p ++ [n.name]) n) hself
  refine ⟨f, ?_, ?_⟩
  · rw [hf, commands_rec_eq]
    simp [List.append_assoc]
  · have : (p ++ [n.name]).length = p.length + 1 := by simp
    rw [← this]
    exact hft

/-- `display_commands` computes the recursive preorder command list. -/
theorem display_commands_eq (ru rg : Nat → String) (root : Node) :
    display_commands ru rg root = commands_rec ru rg [] root := by
  obtain ⟨f, hf, -⟩ :=
    preorder_foldl_spec ru rg root [] [] [] (by simp)
  simp only [List.length_nil] at hf
  simp [display_commands, hf]

/-- `Subnode n m`: `m` lies in the subtree rooted at `n`, following only
successfully listed children (exactly the edges the traversal follows). -/
inductive Subnode : Node → Node → Prop where
  | refl (n : Node) : Subnode n n
  | child {n c m : Node} : c ∈ listedChildren n → Subnode c m → Subnode n m

/-- Every node of a subtree contributes a contiguous command block to the
subtree's command list. -/
theorem subnode_commands (ru rg : Nat → String) {n m : Node} (h : Subnode n m) :
    ∀ s : List (List Nat), ∃ pre post sm,
      commands_rec ru rg s n = pre ++ commands_rec ru rg sm m ++ post := by
  induction h with
  | refl n => exact fun s => ⟨[], [], s, by simp⟩
  | child hc _ ih =>
    rename_i n' c' m' hs
    intro s
    obtain ⟨l1, l2, hsplit⟩ := List.append_of_mem hc
    obtain ⟨pre2, post2, sm, hm⟩ := ih (s ++ [n'.name])
    refine ⟨node_cmds ru rg (s ++ [n'.name]) n'
        ++ l1.flatMap (commands_rec ru rg (s ++ [n'.name])) ++ pre2,
      post2 ++ l2.flatMap (commands_rec ru rg (s ++ [n'.name])), sm, ?_⟩
    rw [commands_rec_eq, hsplit]
    simp [hm, List.append_assoc]

/-! ### Claim theorems -/

/-- C1: in the Command Synthesizer's output, commands follow the preorder
of the traversal: for every node `n` of the displayed tree and every
descendant `d` of `n`, the whole (contiguous) command block emitted for
`n` appears in the output strictly before the whole command block emitted
for `d`.  In particular, when both nodes cause at least one command, every
command for `n` precedes every command for `d`. -/
theorem C1_order_invariant (ru rg : Nat → String) (root n d : Node)
    (hn : Subnode root n) (hd : ∃ c ∈ listedChildren n, Subnode c d) :
    ∃ pre mid post pN pD,
      display_commands ru rg root
        = pre ++ node_cmds ru rg pN n ++ mid ++ node_cmds ru rg pD d ++ post := by
  obtain ⟨c, hc, hcd⟩ := hd
  obtain ⟨pre1, post1, sn, h1⟩ := subnode_commands ru rg hn []
  obtain ⟨l1, l2, hsplit⟩ := List.append_of_mem hc
  obtain ⟨pre2, post2, sd, h2⟩ := subnode_commands ru rg hcd (sn ++ [n.name])
  have h3 := commands_rec_eq ru rg sd d
  refine ⟨pre1,
    l1.flatMap (commands_rec ru rg (sn ++ [n.name])) ++ pre2,
    (listedChildren d).flatMap (commands_rec ru rg (sd ++ [d.name])) ++ post2
      ++ l2.flatMap (commands_rec ru rg (sn ++ [n.name])) ++ post1,
    sn ++ [n.name], sd ++ [d.name], ?_⟩
  rw [display_commands_eq, h1, commands_rec_eq, hsplit, List.flatMap_append,
    List.flatMap_cons, h2, h3]
  simp [List.append_assoc]

/-- Two-node tree used to witness C1 at a concrete input. -/
def c1ChildW : Node :=
  Node.mk [98] (.ok ⟨none, some 2, none, .leaf, .ok []⟩)

/-- Root of the C1 witness tree. -/
def c1RootW : Node :=
  Node.mk [114] (.ok ⟨some 493, some 0, some 0, .directory, .ok [c1ChildW]⟩)

theorem C1_order_invariant_witness :
    Subnode c1RootW c1RootW
    ∧ (∃ c ∈ listedChildren c1RootW, Subnode c c1ChildW)
    ∧ ∃ pre mid post pN pD,
        display_commands (fun u => toString u) (fun g => toString g) c1RootW
          = pre ++ node_cmds (fun u => toString u) (fun g => toString g) pN c1RootW
            ++ mid ++ node_cmds (fun u => toString u) (fun g => toString g) pD c1ChildW
            ++ post :=
  ⟨Subnode.refl _,
   ⟨c1ChildW, by simp [c1RootW, listedChildren], Subnode.refl _⟩,
   C1_order_invariant (fun u => toString u) (fun g => toString g) c1RootW c1RootW
     c1ChildW (Subnode.refl _)
     ⟨c1ChildW, by simp [c1RootW, listedChildren], Subnode.refl _⟩⟩

/-- C3: a node survives `prune` (result `some`) iff its metadata probe
failed, or its directory listing failed, or at least one of the three
override fields is present, or at least one child survives the recursive
pruning; it is dropped (`none`) exactly when the probe and listing
succeeded, all three overrides are absent, and no child survived. -/
theorem C3_prune_soundness (nm : List Nat) (data : Except Nat NodeData) :
    (prune (Node.mk nm data)).isSome = true
      ↔ ((∃ e, data = .error e)
        ∨ ∃ op ou og k ch, data = .ok ⟨op, ou, og, k, ch⟩
            ∧ ((∃ e, ch = .error e)
              ∨ op.isSome = true ∨ ou.isSome = true ∨ og.isSome = true
              ∨ ∃ cs, ch = .ok cs ∧ ∃ c ∈ cs, (prune c).isSome = true)) := by
  cases data with
  | error e => simp [prune]
  | ok nd =>
    obtain ⟨op, ou, og, k, ch⟩ := nd
    cases ch with
    | error e =>
      constructor
      · intro _
        exact Or.inr ⟨op, ou, og, k, .error e, rfl, Or.inl ⟨e, rfl⟩⟩
      · intro _
        simp [prune]
    | ok cs =>
      simp only [prune, prune_list_eq]
      constructor
      · intro h
        refine Or.inr ⟨op, ou, og, k, .ok cs, rfl, ?_⟩
        by_cases hcond : (op.isNone && ou.isNone && og.isNone)
            && (cs.filterMap prune).isEmpty
        · rw [hcond] at h; simp at h
        · simp only [Bool.and_eq_true, List.isEmpty_eq_true,
            Option.isNone_iff_eq_none, List.filterMap_eq_nil_iff, not_and,
            not_forall] at hcond
          by_cases h1 : op = none
          · by_cases h2 : ou = none
            · by_cases h3 : og = none
              · obtain ⟨c, hc, hnone⟩ := hcond ⟨⟨h1, h2⟩, h3⟩
                refine Or.inr (Or.inr (Or.inr (Or.inr ⟨cs, rfl, c, hc, ?_⟩)))
                simp [Option.isSome_iff_ne_none, hnone]
              · exact Or.inr (Or.inr (Or.inr (Or.inl (by
                  simp [Option.isSome_iff_ne_none, h3]))))
            · exact Or.inr (Or.inr (Or.inl (by
                simp [Option.isSome_iff_ne_none, h2])))
          · exact Or.inr (Or.inl (by simp [Option.isSome_iff_ne_none, h1]))
      · intro h
        rcases h with ⟨e, he⟩ | ⟨op2, ou2, og2, k2, ch2, heq, hrest⟩
        · exact absurd he (by simp)
        · obtain ⟨h5a, h5b, h5c, h5d, h5e⟩ := NodeDataF.mk.inj (Except.ok.inj heq)
          subst h5a
          subst h5b
          subst h5c
          subst h5d
          subst h5e
          rcases hrest with ⟨e, he⟩ | hop | hou | hog | ⟨cs2, hcs, c, hcmem, hcsome⟩
          · exact absurd he (by simp)
          · have hC : ((op.isNone && ou.isNone && og.isNone)
                && (cs.filterMap prune).isEmpty) = false := by
              cases op with
              | none => simp at hop
              | some v => simp
            simp [hC]
          · have hC : ((op.isNone && ou.isNone && og.isNone)
                && (cs.filterMap prune).isEmpty) = false := by
              cases ou with
              | none => simp at hou
              | some v => simp
            simp [hC]
          · have hC : ((op.isNone && ou.isNone && og.isNone)
                && (cs.filterMap prune).isEmpty) = false := by
              cases og with
              | none => simp at hog
              | some v => simp
            simp [hC]
          · obtain rfl : cs = cs2 := Except.ok.inj hcs
            have hne : cs.filterMap prune ≠ [] := by
              intro hnil
              rw [List.filterMap_eq_nil_iff] at hnil
              rw [hnil c hcmem] at hcsome
              simp at hcsome
            have hC : (cs.filterMap prune).isEmpty = false := by
              cases hcase : cs.filterMap prune with
              | nil => exact absurd hcase hne
              | cons a t => rfl
            simp [hC]

/-- Helper for C4: a list of fixed points of `prune` filter-maps to
itself. -/
theorem filterMap_prune_self {l : List Node} (h : ∀ x ∈ l, prune x = some x) :
    l.filterMap prune = l := by
  induction l with
  | nil => rfl
  | cons a t ih =>
    rw [List.filterMap_cons, h a (by simp)]
    rw [ih (fun x hx => h x (by simp [hx]))]

/-- C4: pruning is idempotent — a tree that survived pruning is returned
unchanged by a second pruning. -/
theorem C4_prune_idempotent :
    ∀ n : Node, ∀ m : Node, prune n = some m → prune m = some m := by
  refine node_strong_ind ?_
  intro n IH m h
  obtain ⟨nm, data⟩ := n
  cases data with
  | error e =>
    simp only [prune, Option.some.injEq] at h
    subst h
    simp [prune]
  | ok nd =>
    obtain ⟨op, ou, og, k, ch⟩ := nd
    cases ch with
    | error e =>
      simp only [prune, Option.some.injEq] at h
      subst h
      simp [prune]
    | ok cs =>
      simp only [prune] at h
      by_cases hcond : ((op.isNone && ou.isNone && og.isNone)
          && (prune_list cs).isEmpty) = true
      · rw [if_pos hcond] at h; exact absurd h (by simp)
      · rw [if_neg hcond] at h
        obtain rfl := (Option.some.inj h).symm
        have hkids : ∀ x ∈ prune_list cs, prune x = some x := by
          intro x hx
          rw [prune_list_eq] at hx
          obtain ⟨c, hc, hcx⟩ := List.mem_filterMap.mp hx
          exact IH c (by simp [listedChildren, hc]) x hcx
        have hfix : prune_list (prune_list cs) = prune_list cs := by
          rw [prune_list_eq (prune_list cs), filterMap_prune_self hkids]
        simp only [prune, hfix]
        rw [if_neg hcond]

theorem C4_prune_idempotent_witness :
    prune (Node.mk [97] (.ok ⟨some 420, none, none, .leaf, .ok []⟩))
        = some (Node.mk [97] (.ok ⟨some 420, none, none, .leaf, .ok []⟩))
    ∧ prune (Node.mk [97] (.ok ⟨some 420, none, none, .leaf, .ok []⟩))
        = some (Node.mk [97] (.ok ⟨some 420, none, none, .leaf, .ok []⟩)) :=
  ⟨rfl, C4_prune_idempotent
    (Node.mk [97] (.ok ⟨some 420, none, none, .leaf, .ok []⟩))
    (Node.mk [97] (.ok ⟨some 420, none, none, .leaf, .ok []⟩)) rfl⟩

/-- `maybe_override` yields `some v` exactly when the child's value both
is `v` and differs from the parent's. -/
theorem maybe_override_some_iff (p c v : Nat) :
    maybe_override p c = some v ↔ (c ≠ p ∧ v = c) := by
  unfold maybe_override
  by_cases hpc : p = c
  · simp [hpc]
  · simp [hpc]
    constructor
    · intro h; exact ⟨fun hc => hpc hc.symm, h.symm⟩
    · intro h; exact h.2.symm

/-- `maybe_override` yields `none` exactly when the child's value equals
the parent's. -/
theorem maybe_override_none_iff (p c : Nat) :
    maybe_override p c = none ↔ c = p := by
  unfold maybe_override
  by_cases hpc : p = c
  · simp [hpc]
  · simp [hpc]; exact fun h => hpc h.symm

/-- A successfully probed directory entry is built as a directory node
whose children are built with this node's own resolved
(masked perms, uid, gid) as the parent context. -/
theorem build_tree_dir_eq (nm : List Nat) (m : Metadata)
    (entries : Except Nat (List (Except Nat FS))) (ctx : Option ParentData)
    (hdir : m.is_dir = true) :
    ∃ op ou og,
      build_tree (FS.mk nm (.ok m) entries) ctx
        = Node.mk nm (.ok ⟨op, ou, og, FileKind.directory,
            build_children entries
              (some ⟨m.mode &&& 0o7777, m.uid, m.gid, FileKind.directory⟩)⟩) := by
  cases ctx with
  | none =>
    exact ⟨some (m.mode &&& 0o7777), some m.uid, some m.gid,
      by simp [build_tree, hdir]⟩
  | some pd =>
    exact ⟨maybe_override pd.perms (m.mode &&& 0o7777),
      maybe_override pd.uid m.uid, maybe_override pd.gid m.gid,
      by simp [build_tree, hdir]⟩

/-- A successfully probed, successfully listed directory's children names
are the listed entries' names, in enumeration order. -/
theorem childNames_build_tree (nm : List Nat) (m : Metadata)
    (entries : Except Nat (List (Except Nat FS))) (ctx : Option ParentData)
    (cs : List FS) (hdir : m.is_dir = true) (hls : ls entries = .ok cs) :
    childNames (build_tree (FS.mk nm (.ok m) entries) ctx) = cs.map FS.name := by
  have hch : build_children entries
      (some ⟨m.mode &&& 0o7777, m.uid, m.gid, FileKind.directory⟩)
      = .ok (cs.map (fun c => build_tree c
          (some ⟨m.mode &&& 0o7777, m.uid, m.gid, FileKind.directory⟩))) := by
    rw [build_children_spec, hls]; rfl
  obtain ⟨op, ou, og, heq⟩ := build_tree_dir_eq nm m entries ctx hdir
  rw [hch] at heq
  rw [heq]
  simp only [childNames, listedChildren, List.map_map]
  apply List.map_congr_left
  intro c _
  exact build_tree_name c _

/-- C2: (a) root explicitness — with no parent context, all three
override fields are present with the probed values (perms masked to the
low 12 bits); (b) a directory passes exactly its own resolved
(perms, uid, gid) to every child's build; (c) under a parent context every
override field is `maybe_override` of the parent's resolved value against
the probed one; (d) `maybe_override` is `some v` iff `v` is the probed
value and differs from the parent's resolved value, `none` iff they are
equal. -/
theorem C2_overrides :
    (∀ nm (m : Metadata) entries, ∃ k ch,
      build_tree (FS.mk nm (.ok m) entries) none
        = Node.mk nm (.ok ⟨some (m.mode &&& 0o7777), some m.uid, some m.gid, k, ch⟩))
    ∧ (∀ nm (m : Metadata) entries ctx, m.is_dir = true → ∃ op ou og,
      build_tree (FS.mk nm (.ok m) entries) ctx
        = Node.mk nm (.ok ⟨op, ou, og, FileKind.directory,
            build_children entries
              (some ⟨m.mode &&& 0o7777, m.uid, m.gid, FileKind.directory⟩)⟩))
    ∧ (∀ nm (m : Metadata) entries pd, ∃ k ch,
      build_tree (FS.mk nm (.ok m) entries) (some pd)
        = Node.mk nm (.ok ⟨maybe_override pd.perms (m.mode &&& 0o7777),
            maybe_override pd.uid m.uid, maybe_override pd.gid m.gid, k, ch⟩))
    ∧ (∀ p c v : Nat,
      (maybe_override p c = some v ↔ (c ≠ p ∧ v = c))
      ∧ (maybe_override p c = none ↔ c = p)) := by
  refine ⟨?_, ?_, ?_, ?_⟩
  · intro nm m entries
    exact ⟨_, _, rfl⟩
  · intro nm m entries ctx hdir
    exact build_tree_dir_eq nm m entries ctx hdir
  · intro nm m entries pd
    exact ⟨_, _, rfl⟩
  · intro p c v
    exact ⟨maybe_override_some_iff p c v, maybe_override_none_iff p c⟩

theorem C2_overrides_witness :
    (Metadata.mk 493 1 1 true).is_dir = true
    ∧ ∃ op ou og,
      build_tree (FS.mk [114] (.ok (Metadata.mk 493 1 1 true)) (.ok [])) none
        = Node.mk [114] (.ok ⟨op, ou, og, FileKind.directory,
            build_children (Except.ok [])
              (some ⟨(Metadata.mk 493 1 1 true).mode &&& 0o7777,
                (Metadata.mk 493 1 1 true).uid, (Metadata.mk 493 1 1 true).gid,
                FileKind.directory⟩)⟩) :=
  ⟨rfl, C2_overrides.2.1 [114] (Metadata.mk 493 1 1 true) (.ok []) none rfl⟩

/-- Byte-wise lexicographic comparison of raw names, the order C5 claims
for children lists (spec-side definition, used only to state C5). -/
def byteLexLeB : List Nat → List Nat → Bool
  | [], _ => true
  | _ :: _, [] => false
  | a :: as, b :: bs =>
    if a < b then true else if b < a then false else byteLexLeB as bs

/-- C5's claimed property of a name sequence: lexicographically ordered by
raw bytes (spec-side definition, used only to state C5). -/
def sortedByName (l : List (List Nat)) : Prop :=
  l.Chain' (fun a b => byteLexLeB a b = true)

/-- A directory whose OS enumeration returns name `[98]` before name
`[97]` — legal, since `read_dir` order is unspecified. -/
def c5FS : FS :=
  FS.mk [114] (.ok ⟨493, 0, 0, true⟩)
    (.ok [Except.ok (FS.mk [98] (.ok ⟨493, 0, 0, false⟩) (.ok [])),
          Except.ok (FS.mk [97] (.ok ⟨493, 0, 0, false⟩) (.ok []))])

/-- C5 as stated is false: `ls` collects `read_dir` entries in enumeration
order and `build_tree` never sorts, so a directory enumerated out of name
order yields an unsorted children sequence. -/
theorem C5_counterexample :
    childNames (build_tree c5FS none) = [[98], [97]]
    ∧ ¬ sortedByName (childNames (build_tree c5FS none)) := by
  have h : childNames (build_tree c5FS none) = [[98], [97]] := rfl
  refine ⟨h, ?_⟩
  rw [h]
  intro hs
  simp [sortedByName, byteLexLeB] at hs

/-- C5 (amended): children sequences preserve exactly the order in which
the OS directory enumeration returned the entries — `build_tree` applies
no sorting of its own, so the output order is the enumeration order, not
necessarily lexicographic. -/
theorem C5_children_order (nm : List Nat) (m : Metadata)
    (entries : Except Nat (List (Except Nat FS))) (ctx : Option ParentData)
    (cs : List FS) (hdir : m.is_dir = true) (hls : ls entries = .ok cs) :
    childNames (build_tree (FS.mk nm (.ok m) entries) ctx) = cs.map FS.name :=
  childNames_build_tree nm m entries ctx cs hdir hls

theorem C5_children_order_witness :
    (Metadata.mk 493 0 0 true).is_dir = true
    ∧ ls (Except.ok [Except.ok (FS.mk [97] (.ok ⟨493, 0, 0, false⟩) (.ok []))])
        = .ok [FS.mk [97] (.ok ⟨493, 0, 0, false⟩) (.ok [])]
    ∧ childNames (build_tree (FS.mk [100] (.ok (Metadata.mk 493 0 0 true))
        (Except.ok [Except.ok (FS.mk [97] (.ok ⟨493, 0, 0, false⟩) (.ok []))])) none)
        = [FS.mk [97] (.ok ⟨493, 0, 0, false⟩) (.ok [])].map FS.name :=
  ⟨rfl, rfl,
   C5_children_order [100] (Metadata.mk 493 0 0 true)
     (Except.ok [Except.ok (FS.mk [97] (.ok ⟨493, 0, 0, false⟩) (.ok []))]) none
     [FS.mk [97] (.ok ⟨493, 0, 0, false⟩) (.ok [])] rfl rfl⟩

/-- A failing `canonicalize_all` names an argument that is in the list and
fails to canonicalize (and, by construction, the first such). -/
theorem canonicalize_all_error {π : Type} (canon : String → Option π) :
    ∀ (dirs : List String) (bad : String),
      canonicalize_all canon dirs = .error bad →
      bad ∈ dirs ∧ canon bad = none := by
  intro dirs
  induction dirs with
  | nil => intro bad h; exact absurd h (by simp [canonicalize_all])
  | cons a rest ih =>
    intro bad h
    rw [canonicalize_all] at h
    cases hc : canon a with
    | none =>
      simp only [hc] at h
      obtain rfl : a = bad := Except.error.inj h
      exact ⟨by simp, hc⟩
    | some p =>
      simp only [hc] at h
      cases hr : canonicalize_all canon rest with
      | error e =>
        simp only [hr, Except.map] at h
        obtain ⟨h1, h2⟩ := ih e hr
        have he : e = bad := Except.error.inj h
        subst he
        exact ⟨List.mem_cons_of_mem _ h1, h2⟩
      | ok ps =>
        simp only [hr, Except.map] at h
        exact absurd h (by simp)

/-- C6 (amended): if canonicalization of any root path argument fails, the
program prints exactly one diagnostic line naming the (first) offending
argument and stops before walking any root, so no tree or command output
is produced for any root path, preceding or following — but `main` merely
returns, so the process exit status is 0 (success), not non-zero. -/
theorem C6_canonicalize_failure {π : Type} (canon : String → Option π)
    (render : π → List String) (dirs : List String) (bad : String)
    (h : canonicalize_all canon dirs = .error bad) :
    main_run canon render dirs
      = (["permtree: error: where is \"" ++ bad ++ "\"?"], 0)
    ∧ bad ∈ dirs ∧ canon bad = none := by
  refine ⟨?_, canonicalize_all_error canon dirs bad h⟩
  rw [main_run, h]

theorem C6_canonicalize_failure_witness :
    canonicalize_all (fun _ : String => (none : Option (List (List Nat))))
        ["good", "missing"] = .error "good"
    ∧ main_run (fun _ : String => (none : Option (List (List Nat))))
        (fun _ => ["some output"]) ["good", "missing"]
      = (["permtree: error: where is \"" ++ "good" ++ "\"?"], 0) :=
  ⟨rfl, (C6_canonicalize_failure (fun _ => none) (fun _ => ["some output"])
    ["good", "missing"] "good" rfl).1⟩

/-- C6 as stated is false in its exit-status part: with an argument that
fails to canonicalize, the process still exits with status 0. -/
theorem C6_counterexample :
    (fun _ : String => (none : Option (List (List Nat)))) "missing" = none
    ∧ (main_run (fun _ : String => (none : Option (List (List Nat))))
        (fun _ => ["some output"]) ["missing"]).2 = 0 :=
  ⟨rfl, rfl⟩

/-- The `chmod` part of one visit's output: present, with the extra
leading `0` before the `{:04o}`-formatted digits, exactly when the mode is
overridden. -/
def chmod_cmds (path : List (List Nat)) : Option Nat → List String
  | some perms => ["chmod -R 0" ++ format_octal4 perms ++ " " ++ bash_encode path]
  | none => []

theorem octValN_append_digit (ds : List Nat) (d : Nat) :
    octValN (ds ++ [d]) = octValN ds * 8 + d := by
  simp [octValN, List.foldl_append]

/-- The octal digits of `n` denote `n`. -/
theorem octValN_octDigitsN (n : Nat) : octValN (octDigitsN n) = n := by
  induction n using Nat.strong_induction_on with
  | _ n ih =>
    rw [octDigitsN]
    split
    · simp [octValN]
    · rename_i h8
      rw [octValN_append_digit, ih (n / 8) (Nat.div_lt_self (by omega) (by omega))]
      omega

/-- Leading zero digits do not change the denoted value. -/
theorem octValN_pad_zeros (w : Nat) (ds : List Nat) :
    octValN (pad_zeros w ds) = octValN ds := by
  have h0 : ∀ k, List.foldl (fun a d => a * 8 + d) 0 (List.replicate k 0) = 0 := by
    intro k
    induction k with
    | zero => rfl
    | succ k ih => simpa [List.replicate] using ih
  simp [pad_zeros, octValN, List.foldl_append, h0]

/-- A value below `8 ^ k` has at most `k` octal digits (`1 ≤ k`). -/
theorem octDigitsN_length_le : ∀ k n : Nat, n < 8 ^ k → 1 ≤ k →
    (octDigitsN n).length ≤ k := by
  intro k
  induction k with
  | zero => intro n _ h1; omega
  | succ k ih =>
    intro n h _
    rw [octDigitsN]
    split
    · simp
    · rename_i h8
      have hk : 1 ≤ k := by
        rcases Nat.eq_zero_or_pos k with rfl | hpos
        · simp [pow_succ, pow_zero] at h; omega
        · omega
      have hdiv : n / 8 < 8 ^ k := by
        rw [Nat.div_lt_iff_lt_mul (by omega)]
        calc n < 8 ^ (k + 1) := h
        _ = 8 ^ k * 8 := by rw [pow_succ]
      have := ih (n / 8) hdiv hk
      simp only [List.length_append, List.length_cons, List.length_nil]
      omega

/-- C7: for a successfully probed node, the Command Synthesizer emits one
combined recursive `chown user:group` when both uid and gid are
overridden, a recursive user-only `chown` when only the uid is, a
recursive group-only `chgrp` when only the gid is, and no ownership
command when neither is; when the mode is overridden it emits a recursive
`chmod` whose octal argument is a literal `0` prepended to the
`{:04o}`-padded digits — for any 12-bit mode those padded digits have
length exactly 4 and already denote the full value, so the prepended `0`
is an extra leading zero digit beyond the 12 significant bits; a node with
no overrides causes no command at all. -/
theorem C7_command_shapes :
    (∀ (ru rg : Nat → String) path nm (u g : Nat) op k ch,
      node_cmds ru rg path (Node.mk nm (.ok ⟨op, some u, some g, k, ch⟩))
        = ("chown -R " ++ ru u ++ ":" ++ rg g ++ " " ++ bash_encode path)
            :: chmod_cmds path op)
    ∧ (∀ (ru rg : Nat → String) path nm (u : Nat) op k ch,
      node_cmds ru rg path (Node.mk nm (.ok ⟨op, some u, none, k, ch⟩))
        = ("chown -R " ++ ru u ++ " " ++ bash_encode path) :: chmod_cmds path op)
    ∧ (∀ (ru rg : Nat → String) path nm (g : Nat) op k ch,
      node_cmds ru rg path (Node.mk nm (.ok ⟨op, none, some g, k, ch⟩))
        = ("chgrp -R " ++ rg g ++ " " ++ bash_encode path) :: chmod_cmds path op)
    ∧ (∀ (ru rg : Nat → String) path nm op k ch,
      node_cmds ru rg path (Node.mk nm (.ok ⟨op, none, none, k, ch⟩))
        = chmod_cmds path op)
    ∧ (∀ path (p : Nat), chmod_cmds path (some p)
        = ["chmod -R 0" ++ format_octal4 p ++ " " ++ bash_encode path])
    ∧ (∀ p : Nat, p < 4096 →
        (pad_zeros 4 (octDigitsN p)).length = 4
        ∧ octValN (pad_zeros 4 (octDigitsN p)) = p)
    ∧ (∀ (ru rg : Nat → String) path nm k ch,
      node_cmds ru rg path (Node.mk nm (.ok ⟨none, none, none, k, ch⟩)) = []) := by
  refine ⟨?_, ?_, ?_, ?_, ?_, ?_, ?_⟩
  · intro ru rg path nm u g op k ch
    cases op <;> rfl
  · intro ru rg path nm u op k ch
    cases op <;> rfl
  · intro ru rg path nm g op k ch
    cases op <;> rfl
  · intro ru rg path nm op k ch
    cases op <;> rfl
  · intro path p
    rfl
  · intro p hp
    have hlen : (octDigitsN p).length ≤ 4 := by
      refine octDigitsN_length_le 4 p ?_ (by omega)
      have : (8 : Nat) ^ 4 = 4096 := by norm_num
      omega
    constructor
    · simp only [pad_zeros, List.length_append, List.length_replicate]
      omega
    · rw [octValN_pad_zeros, octValN_octDigitsN]
  · intro ru rg path nm k ch
    rfl

theorem C7_command_shapes_witness :
    420 < 4096
    ∧ ((pad_zeros 4 (octDigitsN 420)).length = 4
        ∧ octValN (pad_zeros 4 (octDigitsN 420)) = 420) :=
  ⟨by norm_num, C7_command_shapes.2.2.2.2.2.1 420 (by norm_num)⟩

/-- C8: a node whose metadata probe failed carries only the error — it is
built with no children and no override data, the traversal never recurses
into it, the Command Synthesizer emits no command for it, and the Tree
Renderer prints the explicit error marker instead of an attribute bracket
list; and a failing entry does not abort its siblings: a directory's built
children list has exactly one node per listed entry, whatever the entries'
own probes did. -/
theorem C8_probe_failure :
    (∀ nm (e : Nat) entries ctx,
      build_tree (FS.mk nm (.error e) entries) ctx = Node.mk nm (.error e))
    ∧ (∀ nm (e : Nat), ∀ dd : NodeData, (Node.mk nm (.error e)).data ≠ .ok dd)
    ∧ (∀ nm (e : Nat) d,
      preorder_traversal (Node.mk nm (.error e)) d = [(Node.mk nm (.error e), d)])
    ∧ (∀ (ru rg : Nat → String) path nm (e : Nat),
      node_cmds ru rg path (Node.mk nm (.error e)) = [])
    ∧ (∀ (ru rg : Nat → String) (lossy : List Nat → String) nm (e : Nat) d,
      tree_line ru rg lossy (Node.mk nm (.error e)) d
        = String.join (List.replicate d "  ")
          ++ " [ error reading metadata ]" ++ " " ++ lossy nm ++ "\n")
    ∧ (∀ nm (m : Metadata) entries cs ctx, m.is_dir = true →
      ls entries = .ok cs →
      (listedChildren (build_tree (FS.mk nm (.ok m) entries) ctx)).length
        = cs.length) := by
  refine ⟨?_, ?_, ?_, ?_, ?_, ?_⟩
  · intro nm e entries ctx
    rfl
  · intro nm e dd h
    exact absurd h (by simp)
  · intro nm e d
    rfl
  · intro ru rg path nm e
    rfl
  · intro ru rg lossy nm e d
    rfl
  · intro nm m entries cs ctx hdir hls
    have h := childNames_build_tree nm m entries ctx cs hdir hls
    have h2 : (listedChildren (build_tree (FS.mk nm (.ok m) entries) ctx)).length
        = (childNames (build_tree (FS.mk nm (.ok m) entries) ctx)).length := by
      simp [childNames]
    rw [h2, h, List.length_map]

theorem C8_probe_failure_witness :
    (Metadata.mk 493 0 0 true).is_dir = true
    ∧ ls (Except.ok [Except.ok (FS.mk [97] (.error 13) (.error 13)),
          Except.ok (FS.mk [98] (.ok ⟨420, 0, 0, false⟩) (.ok []))])
        = .ok [FS.mk [97] (.error 13) (.error 13),
          FS.mk [98] (.ok ⟨420, 0, 0, false⟩) (.ok [])]
    ∧ (listedChildren (build_tree (FS.mk [100] (.ok (Metadata.mk 493 0 0 true))
        (Except.ok [Except.ok (FS.mk [97] (.error 13) (.error 13)),
          Except.ok (FS.mk [98] (.ok ⟨420, 0, 0, false⟩) (.ok []))])) none)).length
      = [FS.mk [97] (.error 13) (.error 13),
          FS.mk [98] (.ok ⟨420, 0, 0, false⟩) (.ok [])].length :=
  ⟨rfl, rfl,
   C8_probe_failure.2.2.2.2.2 [100] (Metadata.mk 493 0 0 true)
     (Except.ok [Except.ok (FS.mk [97] (.error 13) (.error 13)),
       Except.ok (FS.mk [98] (.ok ⟨420, 0, 0, false⟩) (.ok []))])
     [FS.mk [97] (.error 13) (.error 13),
       FS.mk [98] (.ok ⟨420, 0, 0, false⟩) (.ok [])] none rfl rfl⟩

/-- C9: `build_tree` is partial at its public interface.  A canonicalized
path with no final component — such as the filesystem root `/`, a valid
argument that canonicalizes to itself — makes `path.file_name().expect(..)`
panic and abort the whole process (`none` here) instead of producing a
`Node` or a recorded per-node error, whatever the filesystem would have
answered for the path; any path with a final component proceeds
normally. -/
theorem C9_root_path_panic :
    file_name [] = none
    ∧ (∀ meta entries, build_tree_at [] meta entries = none)
    ∧ (∀ (p : List Nat) ps meta entries,
      build_tree_at (ps ++ [p]) meta entries
        = some (build_tree (FS.mk p meta entries) none)) := by
  refine ⟨rfl, fun meta entries => rfl, ?_⟩
  intro p ps meta entries
  simp [build_tree_at, file_name, List.getLast?_concat]

/-- C10: directory enumeration is all-or-nothing.  If any single entry of
the iteration fails, `ls` discards every entry already read successfully
and reports the whole listing as that entry's failure; consequently the
directory's node is built with the listing error in place of children — an
error leaf — even when entries before the failing one were readable. -/
theorem C10_ls_all_or_nothing :
    (∀ (pre : List FS) (e : Nat) (post : List (Except Nat FS)),
      ls_entries (pre.map Except.ok ++ Except.error e :: post) = .error e)
    ∧ (∀ (pre : List FS) (e : Nat) (post : List (Except Nat FS)),
      ls (.ok (pre.map Except.ok ++ Except.error e :: post)) = .error e)
    ∧ (∀ nm (m : Metadata) (pre : List FS) (e : Nat)
        (post : List (Except Nat FS)) ctx, m.is_dir = true →
      ∃ op ou og,
        build_tree (FS.mk nm (.ok m)
            (.ok (pre.map Except.ok ++ Except.error e :: post))) ctx
          = Node.mk nm (.ok ⟨op, ou, og, FileKind.directory, .error e⟩)) := by
  have hls : ∀ (pre : List FS) (e : Nat) (post : List (Except Nat FS)),
      ls_entries (pre.map Except.ok ++ Except.error e :: post) = .error e := by
    intro pre e post
    induction pre with
    | nil => rfl
    | cons a t ih => rw [List.map_cons, List.cons_append, ls_entries, ih]; rfl
  refine ⟨hls, fun pre e post => hls pre e post, ?_⟩
  intro nm m pre e post ctx hdir
  obtain ⟨op, ou, og, heq⟩ := build_tree_dir_eq nm m
    (.ok (pre.map Except.ok ++ Except.error e :: post)) ctx hdir
  refine ⟨op, ou, og, ?_⟩
  rw [heq, build_children_spec]
  rw [show ls (.ok (pre.map Except.ok ++ Except.error e :: post)) = .error e
    from hls pre e post]
  rfl

theorem C10_ls_all_or_nothing_witness :
    (Metadata.mk 493 0 0 true).is_dir = true
    ∧ ∃ op ou og,
      build_tree (FS.mk [100] (.ok (Metadata.mk 493 0 0 true))
          (.ok ([FS.mk [97] (.ok ⟨420, 0, 0, false⟩) (.ok [])].map Except.ok
            ++ Except.error 13 :: []))) none
        = Node.mk [100] (.ok ⟨op, ou, og, FileKind.directory, .error 13⟩) :=
  ⟨rfl, C10_ls_all_or_nothing.2.2 [100] (Metadata.mk 493 0 0 true)
    [FS.mk [97] (.ok ⟨420, 0, 0, false⟩) (.ok [])] 13 [] none rfl⟩

end Permtree
